import Mathlib

/-!
Shallow embedding of the TAS storage engine (frame codec, cipher wrapper,
metadata index, upload/download pipeline, FUSE projection, sync engine),
with theorems checking the natural-language specification against the code.

Byte buffers are modelled as `List Nat` (each element one byte value);
machine integers are `Nat` with explicit bounds where the code enforces
them.  JS numbers that pass through an IEEE-754 double conversion are
modelled by an explicit rounding function.
-/

namespace TAS

/-! ## Little-endian byte encoding (Node `Buffer` read/write helpers) -/

/-- `leBytes n v` is the `n`-byte little-endian encoding of `v`, the byte
sequence produced by `Buffer.writeUInt16LE` / `writeBigUInt64LE`
(`src/utils/chunker.js`, `createHeader`). -/
def leBytes : Nat → Nat → List Nat
  | 0, _ => []
  | n + 1, v => v % 256 :: leBytes n (v / 256)

/-- Little-endian value of a byte list, as read back by
`Buffer.readUInt16LE` / `readBigUInt64LE`. -/
def readLEbytes : List Nat → Nat
  | [] => 0
  | b :: rest => b + 256 * readLEbytes rest

/-- `readLE bytes off n`: the `n`-byte little-endian field of `bytes` at
offset `off` (Node `buffer.readUInt16LE(off)` etc., in-bounds case). -/
def readLE (bytes : List Nat) (off n : Nat) : Nat :=
  readLEbytes ((bytes.drop off).take n)

theorem leBytes_length (n v : Nat) : (leBytes n v).length = n := by
  induction n generalizing v with
  | zero => rfl
  | succ n ih => simp [leBytes, ih]

theorem readLEbytes_leBytes {n v : Nat} (h : v < 256 ^ n) :
    readLEbytes (leBytes n v) = v := by
  induction n generalizing v with
  | zero => simp [pow_zero] at h; simp [leBytes, readLEbytes, h]
  | succ n ih =>
      have hdiv : v / 256 < 256 ^ n := by
        rw [Nat.div_lt_iff_lt_mul (by norm_num : 0 < 256)]
        calc v < 256 ^ (n + 1) := h
        _ = 256 ^ n * 256 := by ring
      simp [leBytes, readLEbytes, ih hdiv]
      omega

/-! ## IEEE-754 double rounding of 64-bit integers

`parseHeader` converts the stored 64-bit size with JS `Number(...)`,
which rounds the integer to the nearest double (ties to even).  For
values below `2 ^ 53` this is the identity; above it the value is rounded
to 53 significant bits. -/

/-- Round `n / d` to the nearest integer, ties to even. -/
def roundEvenDiv (n d : Nat) : Nat :=
  let q := n / d
  let r := n % d
  if 2 * r < d then q
  else if d < 2 * r then q + 1
  else if q % 2 = 0 then q else q + 1

/-- Number of binary digits of `n`, computed with enough fuel for 64-bit
values (kernel-reducible, unlike `Nat.log2`). -/
def bitLenAux : Nat → Nat → Nat
  | 0, _ => 0
  | fuel + 1, n => if n = 0 then 0 else bitLenAux fuel (n / 2) + 1

def bitLen (n : Nat) : Nat := bitLenAux 64 n

/-- The value of JS `Number(x)` for an integer `0 ≤ x < 2 ^ 64`:
round to 53 significant bits, ties to even. -/
def jsNumberOfNat (n : Nat) : Nat :=
  if n ≤ 2 ^ 53 then n
  else
    let e := bitLen n - 53
    roundEvenDiv n (2 ^ e) * 2 ^ e

theorem jsNumberOfNat_of_le {n : Nat} (h : n ≤ 2 ^ 53) :
    jsNumberOfNat n = n := by
  rw [jsNumberOfNat, if_pos h]

/-! ## Frame codec (`src/utils/chunker.js`) -/

/-- The magic bytes `"WAS1"` written at offset 0 of every frame header. -/
def was1Magic : List Nat := [87, 65, 83, 49]

/-- Header size constant (`HEADER_SIZE = 64`). -/
def HEADER_SIZE : Nat := 64

/-- Result of `parseHeader` (`src/utils/chunker.js`, `parseHeader`). -/
structure Header where
  version : Nat
  flags : Nat
  compressed : Bool
  originalSize : Nat
  chunkIndex : Nat
  totalChunks : Nat
  filename : List Nat
  deriving Repr, DecidableEq

/-- Errors raised while parsing a frame buffer: `formatError` is the
`'Invalid WAS file: bad magic bytes'` throw; `rangeError` is Node's
`ERR_OUT_OF_RANGE` raised by an out-of-bounds `buffer.readUInt16LE` /
`readBigUInt64LE`. -/
inductive HeaderErr where
  | formatError
  | rangeError
  deriving Repr, DecidableEq

/-- `createHeader(filename, originalSize, chunkIndex, totalChunks, flags)`
from `src/utils/chunker.js`.  The filename is the UTF-8 byte sequence of
the JS string, silently truncated to 42 bytes.  Node's bounds-checked
writes (`writeUInt16LE`, `writeBigUInt64LE`) throw on out-of-range
values, modelled as `none`.  The 64-byte buffer from `Buffer.alloc(64)`
is zero-filled beyond the filename. -/
def createHeader (filename : List Nat) (originalSize chunkIndex totalChunks flags : Nat) :
    Option (List Nat) :=
  if flags < 2 ^ 16 ∧ originalSize < 2 ^ 64 ∧ chunkIndex < 2 ^ 16 ∧ totalChunks < 2 ^ 16 then
    let nameBytes := filename.take 42
    some (was1Magic ++ leBytes 2 1 ++ leBytes 2 flags ++ leBytes 8 originalSize ++
      leBytes 2 chunkIndex ++ leBytes 2 totalChunks ++ leBytes 2 nameBytes.length ++
      nameBytes ++ List.replicate (42 - nameBytes.length) 0)
  else none

/-- `parseHeader(buffer)` from `src/utils/chunker.js`.  The first four
bytes are compared against `'WAS1'`; a mismatch (including a buffer
shorter than four bytes, whose decoded string is shorter) throws the
format error.  The subsequent fixed-offset reads (offsets 4, 6, 8, 16,
18, 20, widths 2/2/8/2/2/2) all succeed exactly when the buffer holds at
least 22 bytes; otherwise Node raises a range error.  The version field
is read but never validated.  The filename is `buffer.subarray(22, 22 +
filenameLength)`, which clamps silently.  The original size passes
through `Number(...)` (see `jsNumberOfNat`). -/
def parseHeader (bytes : List Nat) : Except HeaderErr Header :=
  if bytes.take 4 ≠ was1Magic then .error .formatError
  else if bytes.length < 22 then .error .rangeError
  else .ok
    { version := readLE bytes 4 2
      flags := readLE bytes 6 2
      compressed := readLE bytes 6 2 % 2 = 1
      originalSize := jsNumberOfNat (readLE bytes 8 8)
      chunkIndex := readLE bytes 16 2
      totalChunks := readLE bytes 18 2
      filename := (bytes.drop 22).take (readLE bytes 20 2) }

/-! ### Helper lemmas for reading fixed-offset fields of a concatenation -/

theorem readLE_skip (l₁ l₂ : List Nat) (o n m k : Nat) (h : l₁.length = k)
    (hm : m = k + o) : readLE (l₁ ++ l₂) m n = readLE l₂ o n := by
  subst h; subst hm; unfold readLE; rw [List.drop_append]

theorem readLE_here (mid post : List Nat) (n : Nat) (h : mid.length = n) :
    readLE (mid ++ post) 0 n = readLEbytes mid := by
  unfold readLE
  simp [List.take_left' h]

theorem drop_skip (l₁ l₂ : List Nat) (m k o : Nat) (h : l₁.length = k)
    (hm : m = k + o) : (l₁ ++ l₂).drop m = l₂.drop o := by
  subst h; subst hm; rw [List.drop_append]

/-- C5 (amended): for every filename of at most 42 bytes, original size at
most `2 ^ 53` (exactly representable as a JS number), and chunk index,
chunk total and flags fitting 16 bits, `parseHeader (createHeader ...)`
recovers exactly the filename, original size, chunk index, total chunks
and compressed flag (and version 1).  The bound `2 ^ 53` rather than
`2 ^ 64` is forced by the `Number(...)` conversion in `parseHeader`
(see the counterexample). -/
theorem parseHeader_createHeader_roundtrip
    (name : List Nat) (sz idx tot fl : Nat) (hdr : List Nat)
    (hname : name.length ≤ 42) (hsz : sz ≤ 2 ^ 53)
    (hidx : idx < 2 ^ 16) (htot : tot < 2 ^ 16) (hfl : fl < 2 ^ 16)
    (hmk : createHeader name sz idx tot fl = some hdr) :
    parseHeader hdr = .ok
      { version := 1
        flags := fl
        compressed := decide (fl % 2 = 1)
        originalSize := sz
        chunkIndex := idx
        totalChunks := tot
        filename := name } := by
  have hsz64 : sz < 2 ^ 64 := lt_of_le_of_lt hsz (by norm_num)
  rw [createHeader, if_pos ⟨hfl, hsz64, hidx, htot⟩] at hmk
  have htk : name.take 42 = name := List.take_of_length_le hname
  rw [htk] at hmk
  set Z : List Nat := List.replicate (42 - name.length) 0 with hZ
  have hhdr : hdr = was1Magic ++ (leBytes 2 1 ++ (leBytes 2 fl ++ (leBytes 8 sz ++
      (leBytes 2 idx ++ (leBytes 2 tot ++ (leBytes 2 name.length ++ (name ++ Z))))))) := by
    simpa [List.append_assoc] using hmk.symm
  have hlen : hdr.length = 64 := by
    rw [hhdr]
    simp [was1Magic, leBytes_length, hZ, List.length_replicate]
    omega
  have hmagic : hdr.take 4 = was1Magic := by
    rw [hhdr]; exact List.take_left' rfl
  have l1 : (leBytes 2 1).length = 2 := leBytes_length 2 1
  have lfl : (leBytes 2 fl).length = 2 := leBytes_length 2 fl
  have lsz : (leBytes 8 sz).length = 8 := leBytes_length 8 sz
  have lidx : (leBytes 2 idx).length = 2 := leBytes_length 2 idx
  have ltot : (leBytes 2 tot).length = 2 := leBytes_length 2 tot
  have lnl : (leBytes 2 name.length).length = 2 := leBytes_length 2 name.length
  have hv : readLE hdr 4 2 = 1 := by
    rw [hhdr, readLE_skip was1Magic _ 0 2 4 4 rfl (by norm_num), readLE_here _ _ 2 l1]
    exact readLEbytes_leBytes (by norm_num)
  have hf : readLE hdr 6 2 = fl := by
    rw [hhdr, readLE_skip was1Magic _ 2 2 6 4 rfl (by norm_num),
      readLE_skip _ _ 0 2 2 2 l1 (by norm_num), readLE_here _ _ 2 lfl]
    exact readLEbytes_leBytes (by norm_num at hfl ⊢; omega)
  have hs : readLE hdr 8 8 = sz := by
    rw [hhdr, readLE_skip was1Magic _ 4 8 8 4 rfl (by norm_num),
      readLE_skip _ _ 2 8 4 2 l1 (by norm_num),
      readLE_skip _ _ 0 8 2 2 lfl (by norm_num), readLE_here _ _ 8 lsz]
    exact readLEbytes_leBytes (by norm_num at hsz64 ⊢; omega)
  have hi : readLE hdr 16 2 = idx := by
    rw [hhdr, readLE_skip was1Magic _ 12 2 16 4 rfl (by norm_num),
      readLE_skip _ _ 10 2 12 2 l1 (by norm_num),
      readLE_skip _ _ 8 2 10 2 lfl (by norm_num),
      readLE_skip _ _ 0 2 8 8 lsz (by norm_num), readLE_here _ _ 2 lidx]
    exact readLEbytes_leBytes (by norm_num at hidx ⊢; omega)
  have ht : readLE hdr 18 2 = tot := by
    rw [hhdr, readLE_skip was1Magic _ 14 2 18 4 rfl (by norm_num),
      readLE_skip _ _ 12 2 14 2 l1 (by norm_num),
      readLE_skip _ _ 10 2 12 2 lfl (by norm_num),
      readLE_skip _ _ 2 2 10 8 lsz (by norm_num),
      readLE_skip _ _ 0 2 2 2 lidx (by norm_num), readLE_here _ _ 2 ltot]
    exact readLEbytes_leBytes (by norm_num at htot ⊢; omega)
  have hn : readLE hdr 20 2 = name.length := by
    rw [hhdr, readLE_skip was1Magic _ 16 2 20 4 rfl (by norm_num),
      readLE_skip _ _ 14 2 16 2 l1 (by norm_num),
      readLE_skip _ _ 12 2 14 2 lfl (by norm_num),
      readLE_skip _ _ 4 2 12 8 lsz (by norm_num),
      readLE_skip _ _ 2 2 4 2 lidx (by norm_num),
      readLE_skip _ _ 0 2 2 2 ltot (by norm_num), readLE_here _ _ 2 lnl]
    exact readLEbytes_leBytes (by norm_num; omega)
  have hdrop : hdr.drop 22 = name ++ Z := by
    rw [hhdr, drop_skip was1Magic _ 22 4 18 rfl (by norm_num),
      drop_skip _ _ 18 2 16 l1 (by norm_num),
      drop_skip _ _ 16 2 14 lfl (by norm_num),
      drop_skip _ _ 14 8 6 lsz (by norm_num),
      drop_skip _ _ 6 2 4 lidx (by norm_num),
      drop_skip _ _ 4 2 2 ltot (by norm_num),
      drop_skip _ _ 2 2 0 lnl (by norm_num)]
    exact List.drop_zero _
  rw [parseHeader, if_neg (not_not_intro hmagic), if_neg (by rw [hlen]; norm_num)]
  rw [hv, hf, hs, hi, ht, hn, hdrop, jsNumberOfNat_of_le hsz, List.take_left' rfl]

/-- C5 witness: the round-trip theorem applied at a concrete header
(filename one byte, size 5, index 0 of 1, compressed flag set). -/
theorem parseHeader_createHeader_roundtrip_witness :
    parseHeader ((createHeader [97] 5 0 1 1).getD []) = .ok
      { version := 1
        flags := 1
        compressed := decide ((1 : Nat) % 2 = 1)
        originalSize := 5
        chunkIndex := 0
        totalChunks := 1
        filename := [97] } :=
  parseHeader_createHeader_roundtrip [97] 5 0 1 1 ((createHeader [97] 5 0 1 1).getD [])
    (by decide) (by decide) (by decide) (by decide) (by decide) (by decide)

/-- C5 counterexample: the claim as stated (every original size fitting 64
bits round-trips exactly) is false.  For size `2 ^ 53 + 1` the stored
bytes are exact, but `parseHeader` converts the 64-bit value with JS
`Number(...)`, which rounds it to `2 ^ 53`. -/
theorem parseHeader_numberConversion_cex :
    ((createHeader [] (2 ^ 53 + 1) 0 1 0).map
        (fun h => (parseHeader h).map Header.originalSize)) =
      some (Except.ok (2 ^ 53)) ∧ (2 ^ 53 : Nat) ≠ 2 ^ 53 + 1 := by
  constructor
  · rfl
  · omega

/-- C6 (amended): header parsing fails with `FormatError` exactly when the
buffer does not start with the magic token.  The declared format version
is read but never validated.  With valid magic, a buffer shorter than the
22 bytes covered by the fixed-offset reads fails with an out-of-range
error (not `FormatError`), and any buffer of at least 22 bytes parses
successfully — the full 64-byte header length is not checked. -/
theorem parseHeader_error_characterization (bytes : List Nat) :
    (parseHeader bytes = .error .formatError ↔ bytes.take 4 ≠ was1Magic) ∧
    (parseHeader bytes = .error .rangeError ↔
      (bytes.take 4 = was1Magic ∧ bytes.length < 22)) ∧
    ((∃ h, parseHeader bytes = .ok h) ↔
      (bytes.take 4 = was1Magic ∧ 22 ≤ bytes.length)) := by
  by_cases hmg : bytes.take 4 = was1Magic
  · by_cases hl : bytes.length < 22
    · simp [parseHeader, hmg, hl]
    · simp [parseHeader, hmg, hl]
      omega
  · simp [parseHeader, hmg]

/-- C6 counterexample: a 64-byte buffer with valid magic but declared
version 2 parses successfully — the claim that a version mismatch raises
`FormatError` is false on the code. -/
theorem parseHeader_version_unchecked_cex :
    parseHeader (was1Magic ++ leBytes 2 2 ++ List.replicate 58 0) = .ok
      { version := 2
        flags := 0
        compressed := false
        originalSize := 0
        chunkIndex := 0
        totalChunks := 0
        filename := [] } ∧ (2 : Nat) ≠ 1 := by
  constructor
  · rfl
  · omega

/-! ## Cipher (`src/crypto/encryption.js`)

The `Encryptor` class wraps Node's AES-256-GCM: each `encrypt` call draws
a fresh 32-byte salt and 12-byte IV, derives a key with PBKDF2 from the
password and salt, and outputs `salt ‖ iv ‖ ciphertext ‖ 16-byte tag`;
`decrypt` re-parses that layout, re-derives the key and verifies the tag
before returning plaintext.  The AEAD primitive itself lives in Node's
`crypto` library, so it is abstracted as a `GcmPrim` record; its
GCM-functional properties (decryption inverts encryption under the same
key/IV; the 16-byte tag is a function of key, IV and ciphertext,
distinguishing keys) are hypotheses of the theorem, discharged in the
witness by a concrete instance.  The byte-level layout arithmetic of
`encrypt`/`decrypt` is taken verbatim from the source
(`subarray(0, 32)`, `subarray(32, 44)`, `subarray(-16)`,
`subarray(44, -16)`). -/

/-- Abstract AEAD primitive behind `crypto.createCipheriv('aes-256-gcm')`
plus `crypto.pbkdf2Sync`: key derivation, encryption, decryption and the
authentication tag. -/
structure GcmPrim where
  deriveKey : List Nat → List Nat → List Nat
  enc : List Nat → List Nat → List Nat → List Nat
  dec : List Nat → List Nat → List Nat → List Nat
  tagOf : List Nat → List Nat → List Nat → List Nat

/-- The error thrown by `decipher.final()` on tag verification failure. -/
inductive CryptoErr where
  | authenticationError
  deriving Repr, DecidableEq

/-- `Encryptor.encrypt(data)`: derive a key from the password and the
fresh salt, encrypt, and return `salt ++ iv ++ ciphertext ++ authTag`.
The salt and IV come from `crypto.randomBytes` and are passed here as
explicit inputs. -/
def Encryptor.encrypt (G : GcmPrim) (password data salt iv : List Nat) : List Nat :=
  let key := G.deriveKey password salt
  let encrypted := G.enc key iv data
  let authTag := G.tagOf key iv encrypted
  salt ++ (iv ++ (encrypted ++ authTag))

/-- `Encryptor.decrypt(encryptedData)`: split the buffer at offsets
32 / 44 / length−16, re-derive the key, and fail with
`AuthenticationError` unless the tag verifies. -/
def Encryptor.decrypt (G : GcmPrim) (password buf : List Nat) :
    Except CryptoErr (List Nat) :=
  let salt := buf.take 32
  let iv := (buf.drop 32).take 12
  let authTag := buf.drop (buf.length - 16)
  let ciphertext := (buf.take (buf.length - 16)).drop 44
  let key := G.deriveKey password salt
  if G.tagOf key iv ciphertext = authTag then .ok (G.dec key iv ciphertext)
  else .error .authenticationError

/-- C2: for every payload `P` and password `K`,
`decrypt (encrypt P K) K = P`, and decrypting with any password
`K' ≠ K` fails with `AuthenticationError` instead of returning
plaintext.  The hypotheses are the idealized functional properties of
the underlying AES-256-GCM primitive and of PBKDF2 (distinct passwords
derive distinct keys, distinct keys give distinct tags). -/
theorem encryptor_roundtrip_auth (G : GcmPrim) (P K K' salt iv : List Nat)
    (hdec : ∀ k i p, G.dec k i (G.enc k i p) = p)
    (htlen : ∀ k i c, (G.tagOf k i c).length = 16)
    (hkinj : ∀ s p p', p ≠ p' → G.deriveKey p s ≠ G.deriveKey p' s)
    (htinj : ∀ k k' i c, k ≠ k' → G.tagOf k i c ≠ G.tagOf k' i c)
    (hsalt : salt.length = 32) (hiv : iv.length = 12) (hkk : K ≠ K') :
    Encryptor.decrypt G K (Encryptor.encrypt G K P salt iv) = .ok P ∧
    Encryptor.decrypt G K' (Encryptor.encrypt G K P salt iv) =
      .error .authenticationError := by
  set key := G.deriveKey K salt with hkey
  set ct := G.enc key iv P with hct
  set tg := G.tagOf key iv ct with htg
  have hbuf : Encryptor.encrypt G K P salt iv = salt ++ (iv ++ (ct ++ tg)) := rfl
  have hsplit : salt ++ (iv ++ (ct ++ tg)) = (salt ++ (iv ++ ct)) ++ tg := by
    simp [List.append_assoc]
  have hA : (salt ++ (iv ++ ct)).length = ((salt ++ (iv ++ ct)) ++ tg).length - 16 := by
    simp [htg, htlen]
    omega
  have hsalt' : (salt ++ (iv ++ (ct ++ tg))).take 32 = salt :=
    List.take_left' hsalt
  have hivEq : ((salt ++ (iv ++ (ct ++ tg))).drop 32).take 12 = iv := by
    rw [List.drop_left' hsalt]
    exact List.take_left' hiv
  have htag : (salt ++ (iv ++ (ct ++ tg))).drop
      ((salt ++ (iv ++ (ct ++ tg))).length - 16) = tg := by
    rw [hsplit, ← hA]
    exact List.drop_left' rfl
  have hctEq : ((salt ++ (iv ++ (ct ++ tg))).take
      ((salt ++ (iv ++ (ct ++ tg))).length - 16)).drop 44 = ct := by
    rw [hsplit, ← hA, List.take_left' rfl,
      drop_skip salt _ 44 32 12 hsalt (by norm_num),
      drop_skip iv _ 12 12 0 hiv (by norm_num)]
    exact List.drop_zero _
  constructor
  · rw [Encryptor.decrypt]
    simp only [hbuf, hsalt', hivEq, htag, hctEq, ← hkey, ← htg]
    rw [if_pos trivial, hdec]
  · rw [Encryptor.decrypt]
    simp only [hbuf, hsalt', hivEq, htag, hctEq, ← hkey, htg]
    rw [if_neg]
    have hk' : key ≠ G.deriveKey K' salt := hkinj salt K K' hkk
    exact htinj _ _ iv ct (fun h => hk' h.symm)

/-- Injective encoding of a byte list into a natural number, used by the
concrete witness instance of the abstract AEAD primitive. -/
def listEnc : List Nat → Nat
  | [] => 0
  | b :: t => Nat.pair b (listEnc t) + 1

theorem listEnc_inj : ∀ {l₁ l₂ : List Nat}, listEnc l₁ = listEnc l₂ → l₁ = l₂
  | [], [], _ => rfl
  | [], _ :: _, h => by simp [listEnc] at h
  | _ :: _, [], h => by simp [listEnc] at h
  | a :: t, a' :: t', h => by
      simp only [listEnc, Nat.add_right_cancel_iff, Nat.pair_eq_pair] at h
      rw [h.1, listEnc_inj h.2]

/-- A concrete instance of the abstract AEAD primitive satisfying the
idealized GCM properties, used to witness the cipher theorem. -/
def toyGcm : GcmPrim where
  deriveKey := fun pw _ => pw
  enc := fun _ _ p => p
  dec := fun _ _ c => c
  tagOf := fun k _ _ => listEnc k :: List.replicate 15 0

/-- C2 witness: the cipher theorem applied to the concrete instance at
payload `[1, 2, 3]`, password `[5]`, wrong password `[6]`. -/
theorem encryptor_roundtrip_auth_witness :
    Encryptor.decrypt toyGcm [5]
      (Encryptor.encrypt toyGcm [5] [1, 2, 3] (List.replicate 32 0)
        (List.replicate 12 0)) = .ok [1, 2, 3] ∧
    Encryptor.decrypt toyGcm [6]
      (Encryptor.encrypt toyGcm [5] [1, 2, 3] (List.replicate 32 0)
        (List.replicate 12 0)) = .error .authenticationError :=
  encryptor_roundtrip_auth toyGcm [1, 2, 3] [5] [6]
    (List.replicate 32 0) (List.replicate 12 0)
    (fun _ _ _ => rfl)
    (fun _ _ _ => by simp [toyGcm])
    (fun _ _ _ h => by simpa [toyGcm] using h)
    (fun k k' _ _ hkk => by
      intro h
      simp only [toyGcm, List.cons.injEq] at h
      exact hkk (listEnc_inj h.1))
    (by simp) (by simp) (by decide)

/-! ## Metadata store (`src/db/index.js`, class `FileIndex`)

Rows are kept in insertion (rowid) order; `stmt.get` returns the first
matching row of a scan.  Hash values are abstracted as `Nat`: the stored
and queried hashes are always full-length SHA-256 hex digests, for which
the source's `hash = ? OR hash LIKE ?||'%'` prefix match coincides with
equality.  Filenames are byte strings, because `findByName` uses
`filename = ? OR filename LIKE '%'||?||'%'` — an exact-or-substring
match, case-insensitive over ASCII as SQLite's `LIKE` is (queried names
are assumed free of the `%` and `_` wildcard characters). -/

structure FileRow where
  id : Nat
  filename : List Nat
  hash : Nat
  declaredChunks : Nat
  deriving Repr, DecidableEq

structure ChunkRow where
  fileId : Nat
  idx : Nat
  deriving Repr, DecidableEq

structure DB where
  files : List FileRow
  chunks : List ChunkRow
  nextId : Nat
  deriving Repr, DecidableEq

/-- ASCII case folding applied by SQLite `LIKE`. -/
def asciiLower (b : Nat) : Nat := if 65 ≤ b ∧ b ≤ 90 then b + 32 else b

def startsWithBytes : List Nat → List Nat → Bool
  | _, [] => true
  | [], _ :: _ => false
  | a :: t, b :: u => a == b && startsWithBytes t u

/-- `containsBytes needle hay`: does `hay` contain `needle` as a
contiguous substring? -/
def containsBytes (needle : List Nat) : List Nat → Bool
  | [] => startsWithBytes [] needle
  | a :: t => startsWithBytes (a :: t) needle || containsBytes needle t

/-- SQLite `hay LIKE '%'||needle||'%'` for wildcard-free needles. -/
def likeContainsCI (hay needle : List Nat) : Bool :=
  containsBytes (needle.map asciiLower) (hay.map asciiLower)

/-- `FileIndex.exists(hash)`: exact-match `SELECT 1 FROM files WHERE hash = ?`. -/
def DB.existsHash (db : DB) (h : Nat) : Bool :=
  db.files.any (fun r => r.hash == h)

/-- `FileIndex.findByHash(hash)`: first row matching
`hash = ? OR hash LIKE ?||'%'` (equality for full-length digests). -/
def DB.findByHash (db : DB) (h : Nat) : Option FileRow :=
  db.files.find? (fun r => r.hash == h)

/-- The row predicate of `FileIndex.findByName`:
`filename = ? OR filename LIKE '%'||?||'%'`. -/
def matchName (r : FileRow) (n : List Nat) : Bool :=
  r.filename == n || likeContainsCI r.filename n

/-- `FileIndex.findByName(filename)`: first row matching
`filename = ? OR filename LIKE '%'||?||'%'`. -/
def DB.findByName (db : DB) (n : List Nat) : Option FileRow :=
  db.files.find? (fun r => matchName r n)

/-- `FileIndex.addFile`: insert a row with the next rowid. -/
def DB.addFile (db : DB) (n : List Nat) (h ck : Nat) : Nat × DB :=
  (db.nextId,
    { files := db.files ++ [⟨db.nextId, n, h, ck⟩]
      chunks := db.chunks
      nextId := db.nextId + 1 })

/-- `FileIndex.addChunk`: insert a chunk row for a file. -/
def DB.addChunk (db : DB) (fid i : Nat) : DB :=
  { db with chunks := db.chunks ++ [⟨fid, i⟩] }

/-- `FileIndex.delete(fileId)`: delete the file row; chunk rows are
cascade-deleted. -/
def DB.deleteFile (db : DB) (fid : Nat) : DB :=
  { files := db.files.filter (fun r => r.id != fid)
    chunks := db.chunks.filter (fun c => c.fileId != fid)
    nextId := db.nextId }

/-- `FileIndex.getChunks(fileId)`: chunk rows of the file ordered by
`chunk_index`. -/
def DB.getChunks (db : DB) (fid : Nat) : List ChunkRow :=
  (db.chunks.filter (fun c => c.fileId == fid)).insertionSort
    (fun a b => a.idx ≤ b.idx)

/-! ## Transfer pipeline upload (`src/index.js`, `processFile`)

`processFile` computes the content hash, rejects duplicates via
`db.exists(hash)` before compressing, encrypting, chunking or connecting
to the transport, and otherwise inserts the File row (line 619) and then
sends each chunk and records its Chunk row one at a time.  The metadata
and transport side effects are modelled as an explicit event trace, so
that every intermediate (crash) state is the fold of a trace prefix. -/

inductive PipeErr where
  | duplicateError
  deriving Repr, DecidableEq

inductive PipeEvent where
  | sendChunk (idx : Nat)
  | dbAddFile (row : FileRow)
  | dbAddChunk (fileId idx : Nat)
  deriving Repr, DecidableEq

/-- Effect of one pipeline event on the metadata store (`sendChunk` only
touches the transport). -/
def applyEvent (db : DB) : PipeEvent → DB
  | .sendChunk _ => db
  | .dbAddFile row =>
      { files := db.files ++ [row], chunks := db.chunks, nextId := row.id + 1 }
  | .dbAddChunk fid i => db.addChunk fid i

/-- `TELEGRAM_CHUNK_SIZE = 49 * 1024 * 1024`. -/
def TELEGRAM_CHUNK_SIZE : Nat := 49 * 1024 * 1024

/-- `Math.ceil(encryptedData.length / TELEGRAM_CHUNK_SIZE)`. -/
def numChunksOf (encLen : Nat) : Nat :=
  (encLen + TELEGRAM_CHUNK_SIZE - 1) / TELEGRAM_CHUNK_SIZE

/-- Trace of the upload loop (`for (const chunk of chunkFiles)`): for each
index in order, send the chunk, then record its Chunk row. -/
def chunkEvents (fid : Nat) : Nat → List PipeEvent
  | 0 => []
  | n + 1 => chunkEvents fid n ++ [.sendChunk n, .dbAddChunk fid n]

/-- Event trace of a non-duplicate `processFile` run: the `db.addFile`
call (line 619) comes first, then the per-chunk loop. -/
def processFileEvents (fid : Nat) (n : List Nat) (h encLen : Nat) : List PipeEvent :=
  .dbAddFile ⟨fid, n, h, numChunksOf encLen⟩ :: chunkEvents fid (numChunksOf encLen)

/-- `processFile(filePath, options)` at the metadata/transport level:
argument `encLen` is the length of the encrypted payload (which fixes the
chunk count).  Returns the error (if any), the event trace, and the final
metadata store. -/
def processFile (db : DB) (n : List Nat) (h encLen : Nat) :
    Option PipeErr × List PipeEvent × DB :=
  if db.existsHash h then (some .duplicateError, [], db)
  else
    let evs := processFileEvents db.nextId n h encLen
    (none, evs, evs.foldl applyEvent db)

theorem chunkEvents_length (fid n : Nat) : (chunkEvents fid n).length = 2 * n := by
  induction n with
  | zero => rfl
  | succ n ih =>
      simp [chunkEvents, ih]
      omega

theorem chunkEvents_take_foldl (fid n : Nat) (db : DB) : ∀ k,
    ((chunkEvents fid n).take k).foldl applyEvent db =
      { db with chunks :=
          db.chunks ++ (List.range (min (k / 2) n)).map (fun i => (⟨fid, i⟩ : ChunkRow)) } := by
  induction n with
  | zero =>
      intro k
      simp [chunkEvents]
  | succ n ih =>
      intro k
      have hl := chunkEvents_length fid n
      rw [chunkEvents]
      by_cases hk : k ≤ 2 * n
      · rw [List.take_append_of_le_length (by rw [hl]; exact hk), ih k]
        have : min (k / 2) (n + 1) = min (k / 2) n := by omega
        rw [this]
      · have hfull : (chunkEvents fid n).foldl applyEvent db =
            { db with chunks :=
                db.chunks ++ (List.range n).map (fun i => (⟨fid, i⟩ : ChunkRow)) } := by
          have h2 := ih (2 * n)
          rw [← hl, List.take_length] at h2
          rw [h2]
          have : min (2 * n / 2) n = n := by omega
          rw [hl, this]
        by_cases hk2 : k = 2 * n + 1
        · subst hk2
          have hmin : min ((2 * n + 1) / 2) (n + 1) = n := by omega
          rw [hmin, show 2 * n + 1 = (chunkEvents fid n).length + 1 by omega,
            List.take_append]
          simp only [List.take_succ_cons, List.take_zero, List.foldl_append, hfull]
          rfl
        · have hge : 2 * n + 2 ≤ k := by omega
          rw [List.take_of_length_le (by simp [hl]; omega)]
          rw [List.foldl_append, hfull]
          have : min (k / 2) (n + 1) = n + 1 := by omega
          rw [this, List.range_succ]
          simp [applyEvent, DB.addChunk]

/-- The invariant claimed by C1: no File row declares more chunks than the
number of its Chunk rows. -/
def chunkCountInv (db : DB) : Bool :=
  db.files.all (fun r =>
    r.declaredChunks ≤ (db.chunks.filter (fun c => c.fileId == r.id)).length)

/-- C1 (amended): on a fresh content hash `processFile` succeeds, and its
side-effect trace inserts the File row FIRST and then sends and records
the chunks one at a time in ascending index order.  Consequently, at the
intermediate state after any positive prefix of the steps the File row is
present and its Chunk rows are exactly the contiguous indices
`0 .. m - 1` for `m = min ((k - 1) / 2) numChunks` — so a crash
mid-upload can leave a File row whose declared chunk count exceeds its
recorded Chunk rows (the opposite of the order the spec claims). -/
theorem processFile_fileRow_before_chunks (db : DB) (n : List Nat) (h encLen : Nat)
    (hfresh : db.existsHash h = false) :
    (processFile db n h encLen).1 = none ∧
    (processFile db n h encLen).2.1 =
      .dbAddFile ⟨db.nextId, n, h, numChunksOf encLen⟩ ::
        chunkEvents db.nextId (numChunksOf encLen) ∧
    ∀ k, 1 ≤ k →
      (((processFile db n h encLen).2.1.take k).foldl applyEvent db) =
        { files := db.files ++ [⟨db.nextId, n, h, numChunksOf encLen⟩]
          chunks := db.chunks ++ (List.range (min ((k - 1) / 2) (numChunksOf encLen))).map
            (fun i => ⟨db.nextId, i⟩)
          nextId := db.nextId + 1 } := by
  rw [processFile, if_neg (by simp [hfresh])]
  refine ⟨rfl, rfl, ?_⟩
  intro k hk
  obtain ⟨j, rfl⟩ : ∃ j, k = j + 1 := ⟨k - 1, by omega⟩
  show (((PipeEvent.dbAddFile ⟨db.nextId, n, h, numChunksOf encLen⟩ ::
      chunkEvents db.nextId (numChunksOf encLen)).take (j + 1)).foldl applyEvent db) = _
  rw [List.take_succ_cons, List.foldl_cons, chunkEvents_take_foldl]
  rfl

/-- C1 counterexample: uploading a one-byte payload into an empty store,
the state after the first step of the trace (the `db.addFile` call at
line 619 of the pipeline) holds a File row declaring 1 chunk while zero
Chunk rows exist — the claimed invariant is violated at an intermediate
state. -/
theorem processFile_fileRow_first_cex :
    (processFile ⟨[], [], 0⟩ [65] 7 1).1 = none ∧
    chunkCountInv ((((processFile ⟨[], [], 0⟩ [65] 7 1).2.1).take 1).foldl
      applyEvent ⟨[], [], 0⟩) = false := by
  decide

/-- C1 witness: the amended theorem applied to a one-chunk upload into an
empty store, evaluated after three steps (file row, send, chunk row). -/
theorem processFile_fileRow_before_chunks_witness :
    ((processFile ⟨[], [], 0⟩ [65] 7 1).2.1.take 3).foldl applyEvent ⟨[], [], 0⟩ =
      { files := [⟨0, [65], 7, 1⟩], chunks := [⟨0, 0⟩], nextId := 1 } := by
  rw [(processFile_fileRow_before_chunks ⟨[], [], 0⟩ [65] 7 1 (by decide)).2.2 3 (by decide)]
  decide

/-- C3: if any stored File row carries the uploaded content hash — with
any filename, in particular one differing from the requested name —
`processFile` fails with `DuplicateError`, its event trace is empty (no
chunk is transmitted, the transport is not even contacted), and the
metadata store is returned unchanged.  The `db.exists(hash)` check uses
exact hash equality and ignores filenames. -/
theorem processFile_duplicate_rejected (db : DB) (r : FileRow) (n : List Nat)
    (h encLen : Nat) (hr : r ∈ db.files) (hh : r.hash = h) :
    processFile db n h encLen = (some .duplicateError, [], db) := by
  rw [processFile, if_pos]
  rw [DB.existsHash]
  exact List.any_eq_true.2 ⟨r, hr, by simp [hh]⟩

/-- C3 witness: a store holding hash 7 under filename `[65]` rejects an
upload of the same content under the different name `[66]`, leaving the
store untouched. -/
theorem processFile_duplicate_rejected_witness :
    processFile ⟨[⟨0, [65], 7, 1⟩], [⟨0, 0⟩], 1⟩ [66] 7 5 =
      (some .duplicateError, [], ⟨[⟨0, [65], 7, 1⟩], [⟨0, 0⟩], 1⟩) :=
  processFile_duplicate_rejected _ ⟨0, [65], 7, 1⟩ [66] 7 5 (by decide) rfl

/-! ## Transfer pipeline download (`src/index.js`, `retrieveFile`, and
`TelegramFS.downloadFile` in `src/fuse/mount.js`)

Both download paths run the same assembly: for each chunk row (in
database order) fetch the blob, parse its frame header, keep
`(header.chunkIndex, data.subarray(HEADER_SIZE))`, then sort the
collected pairs by parsed index and concatenate the payloads.  Neither
path compares the parsed index against the chunk's expected position. -/

/-- One iteration of the download loop body: parse the fetched blob's
frame header and keep the parsed chunk index with the payload after the
64-byte header. -/
def parseChunk (b : List Nat) : Except HeaderErr (Nat × List Nat) :=
  (parseHeader b).map (fun h => (h.chunkIndex, b.drop HEADER_SIZE))

/-- The download loop over all fetched blobs, aborting on the first
parse error. -/
def parseAll : List (List Nat) → Except HeaderErr (List (Nat × List Nat))
  | [] => .ok []
  | b :: t =>
      match parseChunk b with
      | .error e => .error e
      | .ok p =>
          match parseAll t with
          | .error e => .error e
          | .ok ps => .ok (p :: ps)

/-- The assembly phase of `retrieveFile` (lines 702-724): parse every
downloaded blob, sort by parsed chunk index
(`downloadedChunks.sort((a, b) => a.index - b.index)`), and concatenate
the payloads (`Buffer.concat`). -/
def assembleChunks (blobs : List (List Nat)) : Except HeaderErr (List Nat) :=
  (parseAll blobs).map
    (fun ps => ((ps.insertionSort (fun a b => a.1 ≤ b.1)).map (fun p => p.2)).flatten)

/-- Total version of `parseChunk` for blobs known to parse. -/
def parsedPair (b : List Nat) : Nat × List Nat :=
  match parseChunk b with
  | .ok p => p
  | .error _ => (0, [])

def parsedIdx (b : List Nat) : Nat := (parsedPair b).1

theorem parseAll_ok {l : List (List Nat)}
    (hok : ∀ b ∈ l, (parseChunk b).isOk = true) :
    parseAll l = .ok (l.map parsedPair) := by
  induction l with
  | nil => rfl
  | cons b t ih =>
      have hb := hok b (List.mem_cons_self b t)
      have ht : ∀ x ∈ t, (parseChunk x).isOk = true :=
        fun x hx => hok x (List.mem_cons_of_mem b hx)
      cases hpc : parseChunk b with
      | error e => rw [hpc] at hb; simp [Except.isOk, Except.toBool] at hb
      | ok p =>
          rw [parseAll, hpc, ih ht]
          simp [List.map_cons, parsedPair, hpc]

/-- C4 (amended): the download assembly performs NO continuity check —
the chunk index used for ordering is the one parsed from each frame
header, not verified against the chunk's position — and when every blob
parses and the parsed indices are pairwise distinct, the concatenation is
strictly in ascending parsed-index order and is independent of the order
in which the blobs were fetched. -/
theorem assembleChunks_order_independent (l₁ l₂ : List (List Nat))
    (hperm : List.Perm l₁ l₂)
    (hok : ∀ b ∈ l₁, (parseChunk b).isOk = true)
    (hnodup : (l₁.map parsedIdx).Nodup) :
    assembleChunks l₁ = assembleChunks l₂ ∧
    ∃ s, List.Perm (l₁.map parsedPair) s ∧
      (s.map Prod.fst).Sorted (· ≤ ·) ∧
      assembleChunks l₁ = .ok ((s.map (fun p => p.2)).flatten) := by
  haveI : IsTotal (Nat × List Nat) (fun a b => a.1 ≤ b.1) :=
    ⟨fun a b => Nat.le_total a.1 b.1⟩
  haveI : IsTrans (Nat × List Nat) (fun a b => a.1 ≤ b.1) :=
    ⟨fun _ _ _ h1 h2 => le_trans h1 h2⟩
  haveI : IsAntisymm (Nat × List Nat) (fun a b => a.1 < b.1) :=
    ⟨fun _ _ h1 h2 => absurd h2 (not_lt.2 (le_of_lt h1))⟩
  have hok₂ : ∀ b ∈ l₂, (parseChunk b).isOk = true :=
    fun b hb => hok b (hperm.mem_iff.mpr hb)
  have hmp : List.Perm (l₁.map parsedPair) (l₂.map parsedPair) := hperm.map _
  set s₁ := (l₁.map parsedPair).insertionSort (fun a b => a.1 ≤ b.1) with hs₁
  set s₂ := (l₂.map parsedPair).insertionSort (fun a b => a.1 ≤ b.1) with hs₂
  have hp₁ : List.Perm s₁ (l₁.map parsedPair) := List.perm_insertionSort _ _
  have hp₂ : List.Perm s₂ (l₂.map parsedPair) := List.perm_insertionSort _ _
  have hss : List.Perm s₁ s₂ := hp₁.trans (hmp.trans hp₂.symm)
  have hsort₁ : s₁.Sorted (fun a b => a.1 ≤ b.1) := List.sorted_insertionSort _ _
  have hsort₂ : s₂.Sorted (fun a b => a.1 ≤ b.1) := List.sorted_insertionSort _ _
  have hnds : ((l₁.map parsedPair).map Prod.fst).Nodup := by
    rw [List.map_map]
    exact hnodup
  have hnd₁ : (s₁.map Prod.fst).Nodup :=
    ((hp₁.map Prod.fst).nodup_iff).mpr hnds
  have hnd₂ : (s₂.map Prod.fst).Nodup :=
    ((hss.map Prod.fst).nodup_iff).mp hnd₁
  have hne₁ : s₁.Pairwise (fun a b => a.1 ≠ b.1) := List.pairwise_map.mp hnd₁
  have hne₂ : s₂.Pairwise (fun a b => a.1 ≠ b.1) := List.pairwise_map.mp hnd₂
  have hlt₁ : s₁.Sorted (fun a b => a.1 < b.1) :=
    (hsort₁.and hne₁).imp (fun h => lt_of_le_of_ne h.1 h.2)
  have hlt₂ : s₂.Sorted (fun a b => a.1 < b.1) :=
    (hsort₂.and hne₂).imp (fun h => lt_of_le_of_ne h.1 h.2)
  have heq : s₁ = s₂ := List.eq_of_perm_of_sorted hss hlt₁ hlt₂
  have ha₁ : assembleChunks l₁ = .ok ((s₁.map (fun p => p.2)).flatten) := by
    rw [assembleChunks, parseAll_ok hok]
    rfl
  have ha₂ : assembleChunks l₂ = .ok ((s₂.map (fun p => p.2)).flatten) := by
    rw [assembleChunks, parseAll_ok hok₂]
    rfl
  refine ⟨by rw [ha₁, ha₂, heq], s₁, hp₁.symm, ?_, ha₁⟩
  exact List.pairwise_map.mpr hsort₁

/-- Decidable equality for `Except`, for evaluating concrete runs. -/
instance {e a : Type} [DecidableEq e] [DecidableEq a] : DecidableEq (Except e a) := fun x y =>
  match x, y with
  | .ok v, .ok w =>
      if h : v = w then .isTrue (h ▸ rfl) else .isFalse (fun he => h (Except.ok.inj he))
  | .error v, .error w =>
      if h : v = w then .isTrue (h ▸ rfl) else .isFalse (fun he => h (Except.error.inj he))
  | .ok _, .error _ => .isFalse (fun he => Except.noConfusion he)
  | .error _, .ok _ => .isFalse (fun he => Except.noConfusion he)

/-- C4 counterexample: two fetched blobs whose frame headers declare
chunk indices 1 and 0 — each differing from the blob's fetch position —
are assembled without any error: the claimed continuity verification
does not exist in the code.  The result is simply the payloads ordered
by parsed index. -/
theorem retrieve_no_continuity_check_cex :
    assembleChunks [((createHeader [] 0 1 2 0).getD []) ++ [10],
      ((createHeader [] 0 0 2 0).getD []) ++ [20]] = .ok [20, 10] ∧
    (parseAll [((createHeader [] 0 1 2 0).getD []) ++ [10],
      ((createHeader [] 0 0 2 0).getD []) ++ [20]]).map (fun ps => ps.map Prod.fst) =
      .ok [1, 0] ∧ (1 : Nat) ≠ 0 := by
  decide

/-- C4 witness: the order-independence theorem applied to the two
concrete blobs above fetched in either order. -/
theorem assembleChunks_order_independent_witness :
    assembleChunks [((createHeader [] 0 1 2 0).getD []) ++ [10],
      ((createHeader [] 0 0 2 0).getD []) ++ [20]] =
    assembleChunks [((createHeader [] 0 0 2 0).getD []) ++ [20],
      ((createHeader [] 0 1 2 0).getD []) ++ [10]] :=
  (assembleChunks_order_independent _ _ (by decide) (by decide) (by decide)).1

/-! ## Virtual filesystem projection (`src/fuse/mount.js`, class `TelegramFS`)

Process-local state: the module-level read cache `fileCache` (name →
`{data, timestamp}`, TTL five minutes) and the per-instance
`writeBuffers` map (name → `{data, modified}`), next to the metadata
store.  `downloadFile` (the full pipeline download feeding `read`) is
passed in as a function of the metadata store and the name; its
internals never touch the cache or the write buffers. -/

structure CacheEntry where
  data : List Nat
  timestamp : Nat
  deriving Repr, DecidableEq

structure WriteBuf where
  data : List Nat
  modified : Bool
  deriving Repr, DecidableEq

structure FSState where
  cache : List (List Nat × CacheEntry)
  buffers : List (List Nat × WriteBuf)
  db : DB
  deriving Repr, DecidableEq

/-- `CACHE_TTL = 5 * 60 * 1000`. -/
def CACHE_TTL : Nat := 5 * 60 * 1000

/-- JS `Map.prototype.get`. -/
def mapGet {α : Type} (m : List (List Nat × α)) (k : List Nat) : Option α :=
  (m.find? (fun e => e.1 == k)).map (fun e => e.2)

/-- JS `Map.prototype.set` (replace in place or append). -/
def mapSet {α : Type} (m : List (List Nat × α)) (k : List Nat) (v : α) :
    List (List Nat × α) :=
  if (m.find? (fun e => e.1 == k)).isSome then
    m.map (fun e => if e.1 == k then (k, v) else e)
  else m ++ [(k, v)]

/-- JS `Map.prototype.delete`. -/
def mapDelete {α : Type} (m : List (List Nat × α)) (k : List Nat) :
    List (List Nat × α) :=
  m.filter (fun e => e.1 != k)

/-- `getCached(filename)`: a hit within the TTL returns the data; an
expired entry is deleted and misses. -/
def getCached (st : FSState) (now : Nat) (n : List Nat) :
    Option (List Nat) × FSState :=
  match mapGet st.cache n with
  | none => (none, st)
  | some e =>
      if now - e.timestamp > CACHE_TTL then
        (none, { st with cache := mapDelete st.cache n })
      else (some e.data, st)

/-- `setCache(filename, data)`. -/
def setCache (st : FSState) (n data : List Nat) (now : Nat) : FSState :=
  { st with cache := mapSet st.cache n ⟨data, now⟩ }

/-- `invalidateCache(filename)`. -/
def invalidateCache (st : FSState) (n : List Nat) : FSState :=
  { st with cache := mapDelete st.cache n }

inductive FSErr where
  | enoent
  | eio
  deriving Repr, DecidableEq

/-- Remote (transport) side effects of the filesystem operations. -/
inductive RemoteOp where
  | deleteMsg (fileId idx : Nat)
  | sendBlob (name : List Nat)
  deriving Repr, DecidableEq

/-- The buffer update of `TelegramFS.write`: zero-extend to
`max(length, position + incoming)` and overwrite `incoming` bytes at
`position`. -/
def writeBytesAt (old : List Nat) (pos : Nat) (src : List Nat) : List Nat :=
  let newSize := max old.length (pos + src.length)
  let padded := old ++ List.replicate (newSize - old.length) 0
  (padded.take pos) ++ src ++ (padded.drop (pos + src.length))

/-- `TelegramFS.write(filepath, fd, buffer, length, position)`: get or
create the write buffer for the name, expand and copy, mark modified,
return the byte count.  The read cache is not touched. -/
def fsWrite (st : FSState) (n : List Nat) (pos : Nat) (src : List Nat) :
    FSState × Nat :=
  let wb := (mapGet st.buffers n).getD ⟨[], true⟩
  ({ st with buffers := mapSet st.buffers n ⟨writeBytesAt wb.data pos src, true⟩ },
    src.length)

/-- `TelegramFS.read(filepath, ...)`: serve from the cache when fresh,
else run the full pipeline download `dl` on the metadata store and
populate the cache; any download failure surfaces as `EIO`.  The write
buffers are never consulted.  (The `position`/`length` slice copied out
of the data is elided: the returned value is the buffer the slice is
taken from.) -/
def fsRead (dl : DB → List Nat → Option (List Nat)) (st : FSState)
    (n : List Nat) (now : Nat) : Except FSErr (List Nat) × FSState :=
  match getCached st now n with
  | (some d, st') => (.ok d, st')
  | (none, st') =>
      match dl st'.db n with
      | some d => (.ok d, setCache st' n d now)
      | none => (.error .eio, st')

/-- `TelegramFS.unlink(filepath)`: look the name up in the index
(exact-or-substring), delete each chunk's remote message, remove the
index row (chunk rows cascade), and invalidate the cache entry for the
requested name. -/
def fsUnlink (st : FSState) (n : List Nat) :
    Except FSErr Unit × List RemoteOp × FSState :=
  match st.db.findByName n with
  | none => (.error .enoent, [], st)
  | some f =>
      (.ok (),
        (st.db.getChunks f.id).map (fun c => .deleteMsg c.fileId c.idx),
        invalidateCache { st with db := st.db.deleteFile f.id } n)

/-- `TelegramFS.rename(src, dest)`: update the filename of the row the
name lookup returns; move the cache entry from the old name to the new
name (`fileCache.delete(oldName); fileCache.set(newName, cached)`). -/
def fsRename (st : FSState) (oldN newN : List Nat) :
    Except FSErr Unit × FSState :=
  match st.db.findByName oldN with
  | none => (.error .enoent, st)
  | some f =>
      let db' : DB :=
        { st.db with files := st.db.files.map (fun r => if r.id == f.id then { r with filename := newN } else r) }
      let st' := { st with db := db' }
      match mapGet st.cache oldN with
      | some e => (.ok (), { st' with cache := mapSet (mapDelete st'.cache oldN) newN e })
      | none => (.ok (), st')

inductive UploadResult where
  | skippedSameHash
  | uploaded
  deriving Repr, DecidableEq

/-- `TelegramFS.uploadFile(filename, data)` at the metadata level: hash
the buffered bytes; if the name lookup (exact-or-substring) hits a row,
delete its remote chunks and its index row; if the hash is then found in
the index (content already stored, possibly under another name), return
silently without creating anything; otherwise compress, encrypt, send
one blob and record a File row with a single chunk row.  The read cache
and the write buffers are not touched. -/
def fsUploadFile (hashFn : List Nat → Nat) (st : FSState) (n data : List Nat) :
    FSState × List RemoteOp × UploadResult :=
  let h := hashFn data
  let delStep : FSState × List RemoteOp :=
    match st.db.findByName n with
    | some f =>
        ({ st with db := st.db.deleteFile f.id },
          (st.db.getChunks f.id).map (fun c => .deleteMsg c.fileId c.idx))
    | none => (st, [])
  let st₁ := delStep.1
  match st₁.db.findByHash h with
  | some _ => (st₁, delStep.2, .skippedSameHash)
  | none =>
      let fid := st₁.db.nextId
      let db₂ := (st₁.db.addFile n h 1).2
      let db₃ := db₂.addChunk fid 0
      ({ st₁ with db := db₃ }, delStep.2 ++ [.sendBlob n], .uploaded)

/-- `TelegramFS.release(filepath, fd)`: nothing to do unless a modified
write buffer exists; otherwise upload the buffered bytes, drop the
buffer, and invalidate the cache entry; report success. -/
def fsRelease (hashFn : List Nat → Nat) (st : FSState) (n : List Nat) :
    Except FSErr Unit × List RemoteOp × FSState :=
  match mapGet st.buffers n with
  | none => (.ok (), [], st)
  | some wb =>
      if wb.modified then
        let up := fsUploadFile hashFn st n wb.data
        (.ok (), up.2.1,
          invalidateCache { up.1 with buffers := mapDelete up.1.buffers n } n)
      else (.ok (), [], st)

theorem mapGet_mapDelete_self {α : Type} (m : List (List Nat × α)) (k : List Nat) :
    mapGet (mapDelete m k) k = none := by
  induction m with
  | nil => rfl
  | cons e t ih =>
      by_cases he : e.1 = k
      · rw [mapDelete, List.filter_cons]
        simp only [he, bne_self_eq_false, Bool.false_eq_true, if_false]
        exact ih
      · rw [mapDelete, List.filter_cons]
        rw [show (e.1 != k) = true by simpa using he]
        rw [if_pos rfl, mapGet, List.find?_cons_of_neg _ (by simpa using he)]
        exact ih

theorem mapGet_mapDelete_other {α : Type} (m : List (List Nat × α)) (k k' : List Nat)
    (h : k' ≠ k) : mapGet (mapDelete m k) k' = mapGet m k' := by
  induction m with
  | nil => rfl
  | cons e t ih =>
      by_cases he : e.1 = k
      · rw [mapDelete, List.filter_cons]
        simp only [he, bne_self_eq_false, Bool.false_eq_true, if_false]
        have hR : mapGet (e :: t) k' = mapGet t k' := by
          rw [mapGet, List.find?_cons_of_neg _ (by simp [he]; exact fun hh => h hh.symm)]
          rfl
        rw [hR]
        exact ih
      · rw [mapDelete, List.filter_cons]
        rw [show (e.1 != k) = true by simpa using he, if_pos rfl]
        by_cases he' : e.1 = k'
        · rw [mapGet, List.find?_cons_of_pos _ (by simp [he']), mapGet,
            List.find?_cons_of_pos _ (by simp [he'])]
        · rw [mapGet, List.find?_cons_of_neg _ (by simp [he']), mapGet,
            List.find?_cons_of_neg _ (by simp [he'])]
          exact ih

theorem mapGet_map_replace {α : Type} (m : List (List Nat × α)) (k : List Nat) (v : α) :
    mapGet (m.map (fun e => if e.1 == k then (k, v) else e)) k =
      if (m.find? (fun e => e.1 == k)).isSome then some v else none := by
  induction m with
  | nil => rfl
  | cons e t ih =>
      by_cases he : e.1 = k
      · rw [List.map_cons, show ((e.1 == k) = true) by simp [he]]
        rw [if_pos rfl, mapGet, List.find?_cons_of_pos _ (by simp),
          List.find?_cons_of_pos _ (by simp [he])]
        rfl
      · rw [List.map_cons, show ((e.1 == k) = false) by simp [he]]
        rw [show (if (false : Bool) then ((k, v) : List Nat × α) else e) = e by simp]
        rw [mapGet, List.find?_cons_of_neg _ (by simp [he]),
          List.find?_cons_of_neg _ (by simp [he])]
        exact ih

theorem mapGet_mapSet_self {α : Type} (m : List (List Nat × α)) (k : List Nat) (v : α) :
    mapGet (mapSet m k v) k = some v := by
  rw [mapSet]
  by_cases hf : (m.find? (fun e => e.1 == k)).isSome
  · rw [if_pos hf, mapGet_map_replace, if_pos hf]
  · rw [if_neg hf]
    have hnone : m.find? (fun e => e.1 == k) = none :=
      Option.not_isSome_iff_eq_none.mp (by simpa using hf)
    rw [mapGet, List.find?_append, hnone]
    simp [List.find?_cons_of_pos]

theorem mapGet_map_replace_other {α : Type} (m : List (List Nat × α)) (k k' : List Nat)
    (v : α) (h : k' ≠ k) :
    mapGet (m.map (fun e => if e.1 == k then (k, v) else e)) k' = mapGet m k' := by
  induction m with
  | nil => rfl
  | cons e t ih =>
      by_cases he : e.1 = k
      · rw [List.map_cons, show ((e.1 == k) = true) by simp [he], if_pos rfl]
        rw [mapGet, List.find?_cons_of_neg _ (by simp; exact fun hh => h hh.symm),
          mapGet, List.find?_cons_of_neg _ (by simp [he]; exact fun hh => h hh.symm)]
        exact ih
      · rw [List.map_cons, show ((e.1 == k) = false) by simp [he]]
        rw [show (if (false : Bool) then ((k, v) : List Nat × α) else e) = e by simp]
        by_cases he' : e.1 = k'
        · rw [mapGet, List.find?_cons_of_pos _ (by simp [he']), mapGet,
            List.find?_cons_of_pos _ (by simp [he'])]
        · rw [mapGet, List.find?_cons_of_neg _ (by simp [he']), mapGet,
            List.find?_cons_of_neg _ (by simp [he'])]
          exact ih

theorem mapGet_mapSet_other {α : Type} (m : List (List Nat × α)) (k k' : List Nat) (v : α)
    (h : k' ≠ k) : mapGet (mapSet m k v) k' = mapGet m k' := by
  rw [mapSet]
  by_cases hf : (m.find? (fun e => e.1 == k)).isSome
  · rw [if_pos hf, mapGet_map_replace_other _ _ _ _ h]
  · rw [if_neg hf, mapGet, List.find?_append]
    have htail : List.find? (fun e => e.1 == k') [(k, v)] = none :=
      List.find?_cons_of_neg _ (by simp; exact fun hh => h hh.symm)
    cases hm : m.find? (fun e => e.1 == k') with
    | some e =>
        rw [mapGet, hm]
        rfl
    | none =>
        rw [htail, mapGet, hm]
        rfl

/-- C7 counterexample: with a fresh cache entry `[1]` for name `[78]`,
a `write` of `[9]` to that name leaves the cache untouched, and a read
immediately afterwards (within the TTL) is served the pre-write bytes
from the cache — the claim that `write` invalidates the entry is false
on the code. -/
theorem write_leaves_cache_stale_cex :
    ((fsWrite ⟨[([78], ⟨[1], 0⟩)], [], ⟨[], [], 0⟩⟩ [78] 0 [9]).1.cache =
      [([78], ⟨[1], 0⟩)]) ∧
    (fsRead (fun _ _ => none) ((fsWrite ⟨[([78], ⟨[1], 0⟩)], [], ⟨[], [], 0⟩⟩ [78] 0 [9]).1)
      [78] 0).1 = .ok [1] ∧
    mapGet ((fsWrite ⟨[([78], ⟨[1], 0⟩)], [], ⟨[], [], 0⟩⟩ [78] 0 [9]).1.buffers) [78] =
      some ⟨[9], true⟩ ∧
    ([1] : List Nat) ≠ [9] := by
  decide

/-- C7 (amended): of the mutating operations, `unlink` (on an indexed
name) and `release` (of a modified buffer) invalidate the read-cache
entry for the name; `rename` does not invalidate the entry but moves it
to the new name — the old key is cleared while the cached bytes survive
under the new key; and `write` leaves the read cache entirely untouched,
so a read between `write` and `release` can still be served the
pre-write cache entry. -/
theorem cache_invalidation_characterization (hashFn : List Nat → Nat)
    (st : FSState) (n oldN newN src : List Nat) (pos : Nat) (f : FileRow)
    (wb : WriteBuf) :
    ((fsWrite st n pos src).1.cache = st.cache) ∧
    (st.db.findByName n = some f → mapGet (fsUnlink st n).2.2.cache n = none) ∧
    (st.db.findByName oldN = some f → oldN ≠ newN →
      mapGet (fsRename st oldN newN).2.cache oldN = none) ∧
    (∀ e, st.db.findByName oldN = some f → oldN ≠ newN →
      mapGet st.cache oldN = some e →
      mapGet (fsRename st oldN newN).2.cache newN = some e) ∧
    (mapGet st.buffers n = some wb → wb.modified = true →
      mapGet (fsRelease hashFn st n).2.2.cache n = none) := by
  refine ⟨rfl, ?_, ?_, ?_, ?_⟩
  · intro hf
    simp only [fsUnlink, hf]
    exact mapGet_mapDelete_self _ _
  · intro hf hne
    simp only [fsRename, hf]
    cases hc : mapGet st.cache oldN with
    | some e =>
        simp only [invalidateCache]
        rw [mapGet_mapSet_other _ _ _ _ hne]
        exact mapGet_mapDelete_self _ _
    | none => exact hc
  · intro e hf hne hc
    simp only [fsRename, hf, hc]
    exact mapGet_mapSet_self _ _ _
  · intro hwb hmod
    simp only [fsRelease, hwb, hmod, if_pos]
    exact mapGet_mapDelete_self _ _

/-- C7 witness: the characterization applied at a state whose cache holds
`[1]` for name `[78]`, whose index has a row named `[78]`, and whose
write buffers hold a modified `[9]` for the name. -/
theorem cache_invalidation_characterization_witness :
    ((fsWrite ⟨[([78], ⟨[1], 0⟩)], [([78], ⟨[9], true⟩)], ⟨[⟨0, [78], 5, 1⟩], [], 1⟩⟩
        [78] 0 [9]).1.cache = [([78], ⟨[1], 0⟩)]) ∧
    mapGet (fsUnlink ⟨[([78], ⟨[1], 0⟩)], [([78], ⟨[9], true⟩)], ⟨[⟨0, [78], 5, 1⟩], [], 1⟩⟩
      [78]).2.2.cache [78] = none ∧
    mapGet (fsRename ⟨[([78], ⟨[1], 0⟩)], [([78], ⟨[9], true⟩)], ⟨[⟨0, [78], 5, 1⟩], [], 1⟩⟩
      [78] [79]).2.cache [78] = none ∧
    mapGet (fsRename ⟨[([78], ⟨[1], 0⟩)], [([78], ⟨[9], true⟩)], ⟨[⟨0, [78], 5, 1⟩], [], 1⟩⟩
      [78] [79]).2.cache [79] = some ⟨[1], 0⟩ ∧
    mapGet (fsRelease (fun l => l.headD 0)
      ⟨[([78], ⟨[1], 0⟩)], [([78], ⟨[9], true⟩)], ⟨[⟨0, [78], 5, 1⟩], [], 1⟩⟩
      [78]).2.2.cache [78] = none := by
  have C := cache_invalidation_characterization (fun l => l.headD 0)
    ⟨[([78], ⟨[1], 0⟩)], [([78], ⟨[9], true⟩)], ⟨[⟨0, [78], 5, 1⟩], [], 1⟩⟩
    [78] [78] [79] [9] 0 ⟨0, [78], 5, 1⟩ ⟨[9], true⟩
  exact ⟨C.1, C.2.1 (by decide), C.2.2.1 (by decide) (by decide),
    C.2.2.2.1 ⟨[1], 0⟩ (by decide) (by decide) (by decide),
    C.2.2.2.2 (by decide) (by decide)⟩

/-- C10: `read` never consults the write buffers — its result is
invariant under replacing the buffer map by anything, it leaves the
buffers unchanged, and on a cache miss it returns exactly the pipeline
download of the previously stored content (or fails with `EIO` when the
download fails), never the buffered bytes. -/
theorem read_ignores_writeBuffers (dl : DB → List Nat → Option (List Nat))
    (st : FSState) (bufs : List (List Nat × WriteBuf)) (n : List Nat) (now : Nat) :
    (fsRead dl { st with buffers := bufs } n now).1 = (fsRead dl st n now).1 ∧
    (fsRead dl st n now).2.buffers = st.buffers ∧
    (mapGet st.cache n = none → ∀ d, dl st.db n = some d →
      (fsRead dl st n now).1 = .ok d) ∧
    (mapGet st.cache n = none → dl st.db n = none →
      (fsRead dl st n now).1 = .error .eio) := by
  obtain ⟨c, b, db⟩ := st
  refine ⟨?_, ?_, ?_, ?_⟩
  · cases hm : mapGet c n with
    | some e =>
        by_cases ht : now - e.timestamp > CACHE_TTL
        · cases hd : dl db n <;>
            simp [fsRead, getCached, hm, ht, hd, setCache, invalidateCache]
        · simp [fsRead, getCached, hm, ht]
    | none =>
        cases hd : dl db n <;> simp [fsRead, getCached, hm, hd, setCache]
  · cases hm : mapGet c n with
    | some e =>
        by_cases ht : now - e.timestamp > CACHE_TTL
        · cases hd : dl db n <;>
            simp [fsRead, getCached, hm, ht, hd, setCache, invalidateCache]
        · simp [fsRead, getCached, hm, ht]
    | none =>
        cases hd : dl db n <;> simp [fsRead, getCached, hm, hd, setCache]
  · intro hm d hd
    simp [fsRead, getCached, hm, hd]
  · intro hm hd
    simp [fsRead, getCached, hm, hd]

/-- C10 witness: a state with no cache entry and a modified write buffer
`[9]` for name `[78]`: read returns the stored content `[5]` delivered
by the pipeline download, not the buffered bytes. -/
theorem read_ignores_writeBuffers_witness :
    (fsRead (fun _ _ => some [5]) ⟨[], [([78], ⟨[9], true⟩)], ⟨[], [], 0⟩⟩
      [78] 0).1 = .ok [5] ∧ ([5] : List Nat) ≠ [9] :=
  ⟨(read_ignores_writeBuffers (fun _ _ => some [5])
      ⟨[], [([78], ⟨[9], true⟩)], ⟨[], [], 0⟩⟩ [] [78] 0).2.2.1 (by decide) [5] rfl,
    by decide⟩

/-- Core of C9: flushing bytes whose hash is already indexed deletes the
row returned by the exact-or-substring name lookup (if any), then skips
creation.  Hypotheses: row ids are unique, at most one stored row
matches the lookup for `n`, and some stored row carries the hash but is
not matched by the lookup (so it survives the deletion). -/
theorem fsUploadFile_sameHash_core (hashFn : List Nat → Nat) (st : FSState)
    (n data : List Nat)
    (hids : (st.db.files.map FileRow.id).Nodup)
    (huniq : ∀ r₁ ∈ st.db.files, ∀ r₂ ∈ st.db.files,
      matchName r₁ n = true → matchName r₂ n = true → r₁ = r₂)
    (r₀ : FileRow) (hr₀ : r₀ ∈ st.db.files) (hr₀h : r₀.hash = hashFn data)
    (hr₀m : matchName r₀ n = false) :
    (fsUploadFile hashFn st n data).2.2 = .skippedSameHash ∧
    ((fsUploadFile hashFn st n data).1.db.files.any
      (fun r => r.filename == n)) = false ∧
    (∀ r ∈ (fsUploadFile hashFn st n data).1.db.files, r ∈ st.db.files) ∧
    (fsUploadFile hashFn st n data).1.buffers = st.buffers := by
  cases hf : st.db.findByName n with
  | none =>
      have hall : ∀ r ∈ st.db.files, matchName r n = false := by
        intro r hr
        have hnm := List.find?_eq_none.mp hf r hr
        cases hmn : matchName r n
        · rfl
        · exact absurd hmn hnm
      cases hfh : st.db.findByHash (hashFn data) with
      | none =>
          exact absurd (show (r₀.hash == hashFn data) = true by simp [hr₀h])
            (List.find?_eq_none.mp hfh r₀ hr₀)
      | some rh =>
          simp only [fsUploadFile, hf, hfh]
          refine ⟨trivial, ?_, fun r hr => hr, trivial⟩
          rw [List.any_eq_false]
          intro r hr hfn
          have hm : matchName r n = true := by simp [matchName, hfn]
          rw [hall r hr] at hm
          exact Bool.noConfusion hm
  | some f =>
      have hf' : st.db.files.find? (fun r => matchName r n) = some f := hf
      have hfmem : f ∈ st.db.files := List.mem_of_find?_eq_some hf'
      have hfmatch : matchName f n = true := by
        have hx := List.find?_some hf'
        simpa using hx
      have hne : r₀ ≠ f := by
        intro he
        rw [he, hfmatch] at hr₀m
        exact Bool.noConfusion hr₀m
      have hneid : r₀.id ≠ f.id :=
        fun he => hne (List.inj_on_of_nodup_map hids hr₀ hfmem he)
      have hr₀mem₁ : r₀ ∈ st.db.files.filter (fun r => r.id != f.id) :=
        List.mem_filter.mpr ⟨hr₀, by simpa using hneid⟩
      cases hfh : (st.db.files.filter (fun r => r.id != f.id)).find?
          (fun r => r.hash == hashFn data) with
      | none =>
          exact absurd (show (r₀.hash == hashFn data) = true by simp [hr₀h])
            (List.find?_eq_none.mp hfh r₀ hr₀mem₁)
      | some rh =>
          simp only [fsUploadFile, hf, DB.findByHash, DB.deleteFile, hfh]
          refine ⟨trivial, ?_, ?_, trivial⟩
          · rw [List.any_eq_false]
            intro r hr hfn
            have hrmem : r ∈ st.db.files := (List.mem_filter.mp hr).1
            have hrid := (List.mem_filter.mp hr).2
            have hm : matchName r n = true := by simp [matchName, hfn]
            have hrf : r = f := huniq r hrmem f hfmem hm hfmatch
            rw [hrf] at hrid
            simp at hrid
          · intro r hr
            exact (List.mem_filter.mp hr).1

/-- C9 counterexample: the name lookup used by the flush path is
exact-or-substring (`LIKE '%'||name||'%'`), so with rows named
`[97, 78, 98]` ("aNb"), `[78]` ("N") and `[77]` ("M") — the last
carrying the buffered content's hash — flushing buffer `[9]` under name
`[78]` deletes the FIRST lookup match, the row "aNb", then skips
creation because of the hash hit; the flush reports success, yet a row
named exactly `[78]` still exists, contradicting the claim. -/
theorem release_sameHash_row_survives_cex :
    (fsRelease (fun l => l.headD 0)
      ⟨[], [([78], ⟨[9], true⟩)],
        ⟨[⟨1, [97, 78, 98], 5, 1⟩, ⟨2, [78], 6, 1⟩, ⟨3, [77], 9, 1⟩], [], 4⟩⟩
      [78]).1 = .ok () ∧
    ((fsRelease (fun l => l.headD 0)
      ⟨[], [([78], ⟨[9], true⟩)],
        ⟨[⟨1, [97, 78, 98], 5, 1⟩, ⟨2, [78], 6, 1⟩, ⟨3, [77], 9, 1⟩], [], 4⟩⟩
      [78]).2.2.db.files.any (fun r => r.filename == [78])) = true ∧
    (([⟨1, [97, 78, 98], 5, 1⟩, ⟨2, [78], 6, 1⟩, ⟨3, [77], 9, 1⟩] : List FileRow).any
      (fun r => r.filename == [77] && r.hash == 9)) = true ∧
    ¬([77] : List Nat) = [78] := by
  decide

/-- C9 (amended): when the flushed buffer's content hash is already
indexed under a row that the exact-or-substring name lookup for `N` does
NOT match, and the lookup matches at most one stored row, the flush
deletes that single matched row (if any), creates no new row, reports
success, and afterwards no index entry with filename `N` exists.  (The
unqualified claim fails because the lookup is substring-based: the
deleted row need not be the one named `N` — see the counterexample.) -/
theorem release_sameHash_skip (hashFn : List Nat → Nat) (st : FSState)
    (n : List Nat) (wb : WriteBuf)
    (hwb : mapGet st.buffers n = some wb) (hmod : wb.modified = true)
    (hids : (st.db.files.map FileRow.id).Nodup)
    (huniq : ∀ r₁ ∈ st.db.files, ∀ r₂ ∈ st.db.files,
      matchName r₁ n = true → matchName r₂ n = true → r₁ = r₂)
    (r₀ : FileRow) (hr₀ : r₀ ∈ st.db.files) (hr₀h : r₀.hash = hashFn wb.data)
    (hr₀m : matchName r₀ n = false) :
    (fsRelease hashFn st n).1 = .ok () ∧
    ((fsRelease hashFn st n).2.2.db.files.any (fun r => r.filename == n)) = false ∧
    (∀ r ∈ (fsRelease hashFn st n).2.2.db.files, r ∈ st.db.files) ∧
    mapGet (fsRelease hashFn st n).2.2.buffers n = none := by
  have core := fsUploadFile_sameHash_core hashFn st n wb.data hids huniq r₀ hr₀ hr₀h hr₀m
  simp only [fsRelease, hwb, hmod, if_pos, invalidateCache]
  exact ⟨trivial, core.2.1, core.2.2.1, mapGet_mapDelete_self _ _⟩

/-- C9 witness: a store with rows `[78]` (hash 5) and `[77]` (hash 9) and
a modified buffer `[9]` for name `[78]`: the flush deletes the row named
`[78]`, keeps the hash-carrying row `[77]`, creates nothing, and
succeeds. -/
theorem release_sameHash_skip_witness :
    (fsRelease (fun l => l.headD 0)
      ⟨[], [([78], ⟨[9], true⟩)], ⟨[⟨1, [78], 5, 1⟩, ⟨2, [77], 9, 1⟩], [], 3⟩⟩
      [78]).1 = .ok () ∧
    ((fsRelease (fun l => l.headD 0)
      ⟨[], [([78], ⟨[9], true⟩)], ⟨[⟨1, [78], 5, 1⟩, ⟨2, [77], 9, 1⟩], [], 3⟩⟩
      [78]).2.2.db.files.any (fun r => r.filename == [78])) = false ∧
    (∀ r ∈ (fsRelease (fun l => l.headD 0)
      ⟨[], [([78], ⟨[9], true⟩)], ⟨[⟨1, [78], 5, 1⟩, ⟨2, [77], 9, 1⟩], [], 3⟩⟩
      [78]).2.2.db.files,
      r ∈ ([⟨1, [78], 5, 1⟩, ⟨2, [77], 9, 1⟩] : List FileRow)) ∧
    mapGet (fsRelease (fun l => l.headD 0)
      ⟨[], [([78], ⟨[9], true⟩)], ⟨[⟨1, [78], 5, 1⟩, ⟨2, [77], 9, 1⟩], [], 3⟩⟩
      [78]).2.2.buffers [78] = none :=
  release_sameHash_skip (fun l => l.headD 0)
    ⟨[], [([78], ⟨[9], true⟩)], ⟨[⟨1, [78], 5, 1⟩, ⟨2, [77], 9, 1⟩], [], 3⟩⟩
    [78] ⟨[9], true⟩ (by decide) (by decide) (by decide) (by decide)
    ⟨2, [77], 9, 1⟩ (by decide) (by decide) (by decide)

/-! ## Sync engine (`src/sync/engine.js`, `SyncEngine.syncFolder`)

Per scanned file the engine looks the relative path up in the folder's
persisted `sync_state` rows.  If the persisted mtime is at least the
current one the file is skipped without hashing; otherwise the digest is
computed — if it equals the persisted one only the stored mtime row is
refreshed; otherwise `processFile` is invoked, whose `DuplicateError`
(`err.message.includes('duplicate')`) is converted into a skip that
still persists digest and mtime.  `index` abstracts the set of content
hashes present in the `files` table, which is what `db.exists(hash)`
inside `processFile` consults. -/

structure SyncFile where
  rel : Nat
  mtime : Nat
  hash : Nat
  deriving Repr, DecidableEq

structure SyncRow where
  rel : Nat
  hash : Nat
  mtime : Nat
  deriving Repr, DecidableEq

structure SyncSt where
  states : List SyncRow
  index : List Nat
  deriving Repr, DecidableEq

/-- `FileIndex.updateSyncState`: upsert on `(folder, relative_path)`. -/
def updState (states : List SyncRow) (rel h m : Nat) : List SyncRow :=
  if states.any (fun s => s.rel == rel) then
    states.map (fun s => if s.rel == rel then (⟨rel, h, m⟩ : SyncRow) else s)
  else states ++ [⟨rel, h, m⟩]

/-- The `stateMap.get(file.relativePath)` lookup. -/
def rowOf (st : SyncSt) (rel : Nat) : Option SyncRow :=
  st.states.find? (fun s => s.rel == rel)

/-- The upload attempt of `syncFolder`: `processFile` rejects a hash
already present in the files table with `DuplicateError`, which the
engine counts as a skip while still persisting digest and mtime; on
success the digest and mtime are persisted and the hash enters the
files table. -/
def syncUpload (st : SyncSt) (f : SyncFile) : SyncSt × Bool :=
  if f.hash ∈ st.index then
    ({ st with states := updState st.states f.rel f.hash f.mtime }, false)
  else
    ({ states := updState st.states f.rel f.hash f.mtime
       index := f.hash :: st.index }, true)

/-- One file of the `syncFolder` scan loop (the Bool is "uploaded"):
mtime not advanced → skip without hashing; digest unchanged → persist
mtime only; otherwise upload (a duplicate counting as a skip). -/
def syncStep (st : SyncSt) (f : SyncFile) : SyncSt × Bool :=
  match rowOf st f.rel with
  | some ex =>
      if f.mtime ≤ ex.mtime then (st, false)
      else if ex.hash == f.hash then
        ({ st with states := updState st.states f.rel f.hash f.mtime }, false)
      else syncUpload st f
  | none => syncUpload st f

/-- The scan over a folder's files: final state, uploaded count,
skipped count. -/
def syncFolder : SyncSt → List SyncFile → SyncSt × Nat × Nat
  | st, [] => (st, 0, 0)
  | st, f :: rest =>
      let s := syncStep st f
      let r := syncFolder s.1 rest
      (r.1, (if s.2 then 1 else 0) + r.2.1, (if s.2 then 0 else 1) + r.2.2)

theorem rowOf_replace (states : List SyncRow) (rel h m : Nat) :
    ((states.map (fun s => if s.rel == rel then (⟨rel, h, m⟩ : SyncRow) else s)).find?
      (fun s => s.rel == rel)) =
    (if states.any (fun s => s.rel == rel) then some ⟨rel, h, m⟩ else none) := by
  induction states with
  | nil => rfl
  | cons s t ih =>
      by_cases hs : s.rel = rel
      · rw [List.map_cons, show ((s.rel == rel) = true) by simp [hs], if_pos rfl,
          List.find?_cons_of_pos _ (by simp), List.any_cons]
        rw [show ((s.rel == rel) = true) by simp [hs]]
        simp
      · rw [List.map_cons, show ((s.rel == rel) = false) by simp [hs]]
        rw [show (if (false : Bool) then (⟨rel, h, m⟩ : SyncRow) else s) = s by simp]
        rw [List.find?_cons_of_neg _ (by simp [hs]), List.any_cons]
        rw [show ((s.rel == rel) = false) by simp [hs]]
        simpa using ih

theorem rowOf_replace_other (states : List SyncRow) (rel' h m rel : Nat)
    (hne : rel ≠ rel') :
    ((states.map (fun s => if s.rel == rel' then (⟨rel', h, m⟩ : SyncRow) else s)).find?
      (fun s => s.rel == rel)) = states.find? (fun s => s.rel == rel) := by
  induction states with
  | nil => rfl
  | cons s t ih =>
      by_cases hs : s.rel = rel'
      · rw [List.map_cons, show ((s.rel == rel') = true) by simp [hs], if_pos rfl]
        rw [List.find?_cons_of_neg _ (by simp; exact fun hh => hne hh.symm),
          List.find?_cons_of_neg _ (by simp [hs]; exact fun hh => hne hh.symm)]
        exact ih
      · rw [List.map_cons, show ((s.rel == rel') = false) by simp [hs]]
        rw [show (if (false : Bool) then (⟨rel', h, m⟩ : SyncRow) else s) = s by simp]
        by_cases hr : s.rel = rel
        · rw [List.find?_cons_of_pos _ (by simp [hr]),
            List.find?_cons_of_pos _ (by simp [hr])]
        · rw [List.find?_cons_of_neg _ (by simp [hr]),
            List.find?_cons_of_neg _ (by simp [hr])]
          exact ih

theorem rowOf_updState_self (states : List SyncRow) (rel h m : Nat) :
    (updState states rel h m).find? (fun s => s.rel == rel) = some ⟨rel, h, m⟩ := by
  rw [updState]
  by_cases ha : states.any (fun s => s.rel == rel)
  · rw [if_pos ha, rowOf_replace, if_pos ha]
  · rw [if_neg ha, List.find?_append]
    have hnone : states.find? (fun s => s.rel == rel) = none := by
      rw [List.find?_eq_none]
      intro x hx hpx
      exact absurd (List.any_eq_true.mpr ⟨x, hx, hpx⟩) ha
    rw [hnone]
    simp [List.find?_cons_of_pos]

theorem rowOf_updState_other (states : List SyncRow) (rel' h m rel : Nat)
    (hne : rel ≠ rel') :
    (updState states rel' h m).find? (fun s => s.rel == rel) =
      states.find? (fun s => s.rel == rel) := by
  rw [updState]
  by_cases ha : states.any (fun s => s.rel == rel')
  · rw [if_pos ha, rowOf_replace_other _ _ _ _ _ hne]
  · rw [if_neg ha, List.find?_append]
    have htail : List.find? (fun s => s.rel == rel) [(⟨rel', h, m⟩ : SyncRow)] = none :=
      List.find?_cons_of_neg _ (by simp; exact fun hh => hne hh.symm)
    cases hm : states.find? (fun s => s.rel == rel) with
    | some e => rfl
    | none => rw [htail]; rfl

theorem syncStep_row_self (st : SyncSt) (f : SyncFile) :
    ∃ ex, rowOf (syncStep st f).1 f.rel = some ex ∧ f.mtime ≤ ex.mtime := by
  have hup : ∃ ex, rowOf (syncUpload st f).1 f.rel = some ex ∧ f.mtime ≤ ex.mtime := by
    rw [syncUpload]
    by_cases hi : f.hash ∈ st.index
    · rw [if_pos hi]
      exact ⟨⟨f.rel, f.hash, f.mtime⟩, rowOf_updState_self _ _ _ _, le_refl _⟩
    · rw [if_neg hi]
      exact ⟨⟨f.rel, f.hash, f.mtime⟩, rowOf_updState_self _ _ _ _, le_refl _⟩
  cases hr : rowOf st f.rel with
  | some ex =>
      simp only [syncStep, hr]
      by_cases hm : f.mtime ≤ ex.mtime
      · rw [if_pos hm]
        exact ⟨ex, hr, hm⟩
      · rw [if_neg hm]
        by_cases hh : (ex.hash == f.hash) = true
        · rw [if_pos hh]
          exact ⟨⟨f.rel, f.hash, f.mtime⟩, rowOf_updState_self _ _ _ _, le_refl _⟩
        · rw [if_neg hh]
          exact hup
  | none =>
      simp only [syncStep, hr]
      exact hup

theorem syncStep_row_other (st : SyncSt) (g : SyncFile) (rel : Nat)
    (hne : rel ≠ g.rel) :
    rowOf (syncStep st g).1 rel = rowOf st rel := by
  have hup : rowOf (syncUpload st g).1 rel = rowOf st rel := by
    rw [syncUpload]
    by_cases hi : g.hash ∈ st.index
    · rw [if_pos hi]
      exact rowOf_updState_other _ _ _ _ _ hne
    · rw [if_neg hi]
      exact rowOf_updState_other _ _ _ _ _ hne
  cases hr : rowOf st g.rel with
  | some ex =>
      simp only [syncStep, hr]
      by_cases hm : g.mtime ≤ ex.mtime
      · rw [if_pos hm]
      · rw [if_neg hm]
        by_cases hh : (ex.hash == g.hash) = true
        · rw [if_pos hh]
          exact rowOf_updState_other _ _ _ _ _ hne
        · rw [if_neg hh]
          exact hup
  | none =>
      simp only [syncStep, hr]
      exact hup

theorem syncFolder_row_preserved (files : List SyncFile) (st : SyncSt) (rel : Nat)
    (h : ∀ g ∈ files, rel ≠ g.rel) :
    rowOf (syncFolder st files).1 rel = rowOf st rel := by
  induction files generalizing st with
  | nil => rfl
  | cons g rest ih =>
      calc rowOf (syncFolder st (g :: rest)).1 rel
          = rowOf (syncFolder (syncStep st g).1 rest).1 rel := rfl
        _ = rowOf (syncStep st g).1 rel :=
            ih _ (fun x hx => h x (List.mem_cons_of_mem g hx))
        _ = rowOf st rel := syncStep_row_other st g rel (h g (List.mem_cons_self g rest))

theorem syncFolder_establishes (files : List SyncFile) (st : SyncSt)
    (hnd : (files.map SyncFile.rel).Nodup) :
    ∀ f ∈ files, ∃ ex, rowOf (syncFolder st files).1 f.rel = some ex ∧
      f.mtime ≤ ex.mtime := by
  induction files generalizing st with
  | nil =>
      intro f hf
      exact absurd hf (List.not_mem_nil f)
  | cons g rest ih =>
      rw [List.map_cons, List.nodup_cons] at hnd
      intro f hf
      rcases List.mem_cons.mp hf with hfg | hfr
      · subst hfg
        obtain ⟨ex, hex, hm⟩ := syncStep_row_self st f
        refine ⟨ex, ?_, hm⟩
        have hpres : rowOf (syncFolder (syncStep st f).1 rest).1 f.rel =
            rowOf (syncStep st f).1 f.rel := by
          apply syncFolder_row_preserved
          intro x hx he
          apply hnd.1
          rw [he]
          exact List.mem_map_of_mem SyncFile.rel hx
        show rowOf (syncFolder (syncStep st f).1 rest).1 f.rel = some ex
        rw [hpres, hex]
      · exact ih (syncStep st g).1 hnd.2 f hfr

theorem syncFolder_all_skipped (files : List SyncFile) (st : SyncSt)
    (h : ∀ f ∈ files, ∃ ex, rowOf st f.rel = some ex ∧ f.mtime ≤ ex.mtime) :
    syncFolder st files = (st, 0, files.length) := by
  induction files with
  | nil => rfl
  | cons f rest ih =>
      obtain ⟨ex, hex, hm⟩ := h f (List.mem_cons_self f rest)
      have hstep : syncStep st f = (st, false) := by
        simp only [syncStep, hex, if_pos hm]
      have hrest := ih (fun x hx => h x (List.mem_cons_of_mem f hx))
      simp only [syncFolder, hstep, hrest]
      simp
      omega

/-- C8: the scan's per-file decision policy matches the claim.  With a
persisted row for the path: (1) persisted mtime at least the current one
→ the file is skipped with the state completely untouched (the digest
argument is never consulted — the conclusion is independent of the
file's hash field); (2) mtime advanced but digest persisted → only the
sync-state row is refreshed, nothing is uploaded; (3) digest changed but
already in the files table → `processFile`'s DuplicateError is treated
as a skip that still persists digest and mtime; (4) digest changed and
new → the file is uploaded and digest/mtime persisted.  (5)/(6): the
no-row cases upload or duplicate-skip the same way.  (7) Consequently a
second scan over an unchanged folder (distinct relative paths) uploads
zero files. -/
theorem syncFolder_decision_policy :
    (∀ st (f : SyncFile) ex, rowOf st f.rel = some ex → f.mtime ≤ ex.mtime →
      syncStep st f = (st, false)) ∧
    (∀ st (f : SyncFile) ex, rowOf st f.rel = some ex → ex.mtime < f.mtime →
      ex.hash = f.hash →
      syncStep st f =
        ({ st with states := updState st.states f.rel f.hash f.mtime }, false)) ∧
    (∀ st (f : SyncFile) ex, rowOf st f.rel = some ex → ex.mtime < f.mtime →
      ex.hash ≠ f.hash → f.hash ∈ st.index →
      syncStep st f =
        ({ st with states := updState st.states f.rel f.hash f.mtime }, false)) ∧
    (∀ st (f : SyncFile) ex, rowOf st f.rel = some ex → ex.mtime < f.mtime →
      ex.hash ≠ f.hash → f.hash ∉ st.index →
      syncStep st f =
        (⟨updState st.states f.rel f.hash f.mtime, f.hash :: st.index⟩, true)) ∧
    (∀ st (f : SyncFile), rowOf st f.rel = none → f.hash ∈ st.index →
      syncStep st f =
        ({ st with states := updState st.states f.rel f.hash f.mtime }, false)) ∧
    (∀ st (f : SyncFile), rowOf st f.rel = none → f.hash ∉ st.index →
      syncStep st f =
        (⟨updState st.states f.rel f.hash f.mtime, f.hash :: st.index⟩, true)) ∧
    (∀ st (files : List SyncFile), (files.map SyncFile.rel).Nodup →
      (syncFolder (syncFolder st files).1 files).2.1 = 0) := by
  refine ⟨?_, ?_, ?_, ?_, ?_, ?_, ?_⟩
  · intro st f ex hex hm
    simp only [syncStep, hex, if_pos hm]
  · intro st f ex hex hlt hh
    simp only [syncStep, hex]
    rw [if_neg (not_le.mpr hlt), if_pos (by simp [hh])]
  · intro st f ex hex hlt hh hi
    simp only [syncStep, hex, syncUpload]
    rw [if_neg (not_le.mpr hlt), if_neg (by simp; exact fun he => hh he),
      if_pos hi]
  · intro st f ex hex hlt hh hi
    simp only [syncStep, hex, syncUpload]
    rw [if_neg (not_le.mpr hlt), if_neg (by simp; exact fun he => hh he),
      if_neg hi]
  · intro st f hex hi
    simp only [syncStep, hex, syncUpload]
    rw [if_pos hi]
  · intro st f hex hi
    simp only [syncStep, hex, syncUpload]
    rw [if_neg hi]
  · intro st files hnd
    rw [syncFolder_all_skipped files _ (syncFolder_establishes files st hnd)]

/-- C8 witness: two files with distinct paths scanned twice from an empty
state: the second pass uploads zero files. -/
theorem syncFolder_decision_policy_witness :
    (syncFolder (syncFolder ⟨[], []⟩ [⟨1, 10, 100⟩, ⟨2, 20, 200⟩]).1
      [⟨1, 10, 100⟩, ⟨2, 20, 200⟩]).2.1 = 0 :=
  syncFolder_decision_policy.2.2.2.2.2.2 ⟨[], []⟩
    [⟨1, 10, 100⟩, ⟨2, 20, 200⟩] (by decide)

end TAS












